import Mathlib

/-!
Verification of the `higher_order_point` functional point algebra.

The library represents a 3D point as a triple of scalar functions sharing one
parameter type.  Machine doubles are modelled as real numbers; the machine
remainder operator `%` (remainder with the sign of the dividend) is modelled
by `fmod` below, and the machine square root (NaN on negative input) by
`sqrtN`, with `none` standing for NaN.
-/

namespace HigherOrderPoint

/-- Truncation toward zero on the reals, as the machine remainder computes it. -/
noncomputable def rtrunc (x : ℝ) : ℝ := if 0 ≤ x then (⌊x⌋ : ℝ) else (⌈x⌉ : ℝ)

/-- The machine remainder `a % m`: `a - m * trunc (a / m)`, whose sign follows
the dividend `a`.  This models Rust's `%` on doubles, used by `zip`. -/
noncomputable def fmod (a m : ℝ) : ℝ := a - m * rtrunc (a / m)

/-- `step` from `src/math.rs`: `if a < 0.0 {0.0} else {1.0}`. -/
noncomputable def step (a : ℝ) : ℝ := if a < 0 then 0 else 1

/-- `zip` from `src/math.rs`:
`if t % 2.0 < 1.0 { a(t % 1.0 + (t/2.0).floor()) } else { b(t % 1.0 + ((t-1.0)/2.0).floor()) }`. -/
noncomputable def zip (a b : ℝ → ℝ) : ℝ → ℝ := fun t =>
  if fmod t 2 < 1 then a (fmod t 1 + (⌊t / 2⌋ : ℝ))
  else b (fmod t 1 + (⌊(t - 1) / 2⌋ : ℝ))

/-- Modelled from the spec: the spec's exact rule for `zip`.  Let `n = floor(t)`;
if `n` is even evaluate `a` at `(t mod 1) + n/2`, if `n` is odd evaluate `b` at
`(t mod 1) + (n-1)/2`, with `mod` the floor-based modulo `t - floor(t)` for
modulus one. -/
noncomputable def specZipRule (a b : ℝ → ℝ) (t : ℝ) : ℝ :=
  if ⌊t⌋ % 2 = 0 then a ((t - (⌊t⌋ : ℝ)) + ((⌊t⌋ / 2 : ℤ) : ℝ))
  else b ((t - (⌊t⌋ : ℝ)) + (((⌊t⌋ - 1) / 2 : ℤ) : ℝ))

/-- Machine square root: NaN (modelled as `none`) on negative input. -/
noncomputable def sqrtN (x : ℝ) : Option ℝ := if x < 0 then none else some (Real.sqrt x)

/-- `half_circle` from `src/math.rs`: `(1.0 - x * x).sqrt()`. -/
noncomputable def half_circle (x : ℝ) : Option ℝ := sqrtN (1 - x * x)

/-- `lift_right` from `src/math.rs`: ignores the new right argument. -/
def lift_right {T U V : Type} (f : U → V) : U × T → V := fun p => f p.1

/-- `lift_left` from `src/math.rs`: ignores the new left argument. -/
def lift_left {T U V : Type} (f : U → V) : T × U → V := fun p => f p.2

/-- `line` from `src/math.rs` at scalar type: `a + (b - a) * t`. -/
def line (a b t : ℝ) : ℝ := a + (b - a) * t

/-- The `qbez` macro from `src/math.rs`: `line(line(a,b,t), line(b,c,t), t)`. -/
def qbez (a b c t : ℝ) : ℝ := line (line a b t) (line b c t) t

/-- The `cbez` macro from `src/math.rs`: `line(line(a,b,t), line(c,d,t), t)`. -/
def cbez (a b c d t : ℝ) : ℝ := line (line a b t) (line c d t) t

/-- Modelled from the spec: the textbook cubic De Casteljau blend of four
control points, `line(qbez(a,b,c,t), qbez(b,c,d,t), t)`. -/
def deCasteljauCubic (a b c d t : ℝ) : ℝ := line (qbez a b c t) (qbez b c d t) t

/-- `Point<()>` from `src/lib.rs`: a concrete 3D point of plain numbers. -/
@[ext]
structure Point where
  x : ℝ
  y : ℝ
  z : ℝ

/-- `PointFunc<T>` from `src/lib.rs`: three scalar functions of one shared
parameter type. -/
structure PointFunc (T : Type) where
  x : T → ℝ
  y : T → ℝ
  z : T → ℝ

/-- `Call<T> for Point` from `src/lib.rs`: evaluate each component at `val`. -/
def PointFunc.call {T : Type} (p : PointFunc T) (val : T) : Point :=
  ⟨p.x val, p.y val, p.z val⟩

/-- `PointFunc::lift_right` from `src/lib.rs`. -/
def PointFunc.lift_right {T : Type} (U : Type) (p : PointFunc T) : PointFunc (T × U) :=
  ⟨fun a => p.x a.1, fun a => p.y a.1, fun a => p.z a.1⟩

/-- `PointFunc::lift_left` from `src/lib.rs`. -/
def PointFunc.lift_left {T : Type} (U : Type) (p : PointFunc T) : PointFunc (U × T) :=
  ⟨fun a => p.x a.2, fun a => p.y a.2, fun a => p.z a.2⟩

/-- The constant `TAU` from `src/math.rs`. -/
noncomputable def TAU : ℝ := 6.283185307179586

/-- `Point::circle` from `src/lib.rs`: cosine/sine of `ang * TAU`, `z` zero. -/
noncomputable def Point.circle : PointFunc ℝ :=
  ⟨fun ang => Real.cos (ang * TAU), fun ang => Real.sin (ang * TAU), fun _ => 0⟩

/-- `Norm for PointFunc<T>` from `src/lib.rs`:
`(fx(v).powi(2) + fy(v).powi(2) + fz(v).powi(2)).sqrt()`. -/
noncomputable def PointFunc.norm {T : Type} (p : PointFunc T) : T → ℝ :=
  fun v => Real.sqrt ((p.x v) ^ 2 + (p.y v) ^ 2 + (p.z v) ^ 2)

/-- `Diff for PointFunc<f64>` from `src/lib.rs`: forward difference on each
component with the caller's `eps`. -/
noncomputable def PointFunc.diff (p : PointFunc ℝ) (eps : ℝ) : PointFunc ℝ :=
  ⟨fun t => (p.x (t + eps) - p.x t) / eps,
   fun t => (p.y (t + eps) - p.y t) / eps,
   fun t => (p.z (t + eps) - p.z t) / eps⟩

/-- `Add for Point` from `src/lib.rs`. -/
def Point.add (p q : Point) : Point := ⟨p.x + q.x, p.y + q.y, p.z + q.z⟩

/-- `Sub for Point` from `src/lib.rs`. -/
def Point.sub (p q : Point) : Point := ⟨p.x - q.x, p.y - q.y, p.z - q.z⟩

/-- `Mul<f64> for Point` from `src/lib.rs`. -/
def Point.mulScalar (p : Point) (s : ℝ) : Point := ⟨p.x * s, p.y * s, p.z * s⟩

/-- `line` from `src/math.rs` instantiated at concrete points with a scalar
parameter: `a + (b - a) * t` through the `Point` operator impls. -/
def Point.line (a b : Point) (t : ℝ) : Point := a.add ((b.sub a).mulScalar t)

/-- `Add<PointFunc<T>> for Point` from `src/lib.rs`: the concrete point acts
as a constant on each component. -/
def addPointFunc {T : Type} (p : Point) (f : PointFunc T) : PointFunc T :=
  ⟨fun a => p.x + f.x a, fun a => p.y + f.y a, fun a => p.z + f.z a⟩

/-- `Add<U: Into<Point>> for PointFunc<T>` from `src/lib.rs` at `U = Point`. -/
def PointFunc.addPoint {T : Type} (f : PointFunc T) (p : Point) : PointFunc T :=
  ⟨fun a => f.x a + p.x, fun a => f.y a + p.y, fun a => f.z a + p.z⟩

/-- `Sub<PointFunc<T>> for Point` from `src/lib.rs`. -/
def subPointFunc {T : Type} (p : Point) (f : PointFunc T) : PointFunc T :=
  ⟨fun a => p.x - f.x a, fun a => p.y - f.y a, fun a => p.z - f.z a⟩

/-- `Sub<U: Into<Point>> for PointFunc<T>` from `src/lib.rs` at `U = Point`. -/
def PointFunc.subPoint {T : Type} (f : PointFunc T) (p : Point) : PointFunc T :=
  ⟨fun a => f.x a - p.x, fun a => f.y a - p.y, fun a => f.z a - p.z⟩

/-- `Mul<PointFunc<T>> for Point` from `src/lib.rs`: componentwise product of
the point's plain components with the function's components. -/
def mulPointFunc {T : Type} (p : Point) (f : PointFunc T) : PointFunc T :=
  ⟨fun a => p.x * f.x a, fun a => p.y * f.y a, fun a => p.z * f.z a⟩

/-- C3: for all compatible values, `line(a,b,0) = a` and `line(a,b,1) = b`,
both at scalar type and at concrete points. -/
theorem line_endpoint_law (a b : ℝ) (p q : Point) :
    line a b 0 = a ∧ line a b 1 = b ∧
    Point.line p q 0 = p ∧ Point.line p q 1 = q := by
  refine ⟨by simp [line], by simp [line], ?_, ?_⟩ <;>
    · ext <;> simp [Point.line, Point.add, Point.sub, Point.mulScalar]

/-- C2: the `cbez` macro computes exactly the linear blend
`(a+(b-a)t) + ((c+(d-c)t) - (a+(b-a)t))*t` of the two outer interpolations,
and this disagrees with the textbook cubic De Casteljau polynomial, e.g. at
control points `0, 0, 0, 1` and `t = 1/2`. -/
theorem cbez_is_linear_blend_not_cubic :
    (∀ a b c d t : ℝ,
      cbez a b c d t = (a + (b - a) * t) + ((c + (d - c) * t) - (a + (b - a) * t)) * t) ∧
    cbez 0 0 0 1 (1 / 2) = 1 / 4 ∧ deCasteljauCubic 0 0 0 1 (1 / 2) = 1 / 8 ∧
    cbez 0 0 0 1 (1 / 2) ≠ deCasteljauCubic 0 0 0 1 (1 / 2) := by
  refine ⟨fun a b c d t => rfl, by norm_num [cbez, qbez, line],
    by norm_num [deCasteljauCubic, cbez, qbez, line],
    by norm_num [deCasteljauCubic, cbez, qbez, line]⟩

/-- C5: lifting a scalar function or a point function and then calling it with
the added axis fixed at any value reproduces the original output exactly. -/
theorem lift_round_trip (T U : Type) (f : U → ℝ) (p : PointFunc U) (t : U) (u : T) :
    lift_right (T := T) f (t, u) = f t ∧
    lift_left (T := T) f (u, t) = f t ∧
    (p.lift_right T).call (t, u) = p.call t ∧
    (p.lift_left T).call (u, t) = p.call t :=
  ⟨rfl, rfl, rfl, rfl⟩

/-- C6: calling a point function at a value yields exactly the concrete point
of its three components at that value; the result is determined by the
components, so equal values give equal results. -/
theorem call_componentwise (T : Type) (p : PointFunc T) (v w : T) :
    p.call v = Point.mk (p.x v) (p.y v) (p.z v) ∧ (v = w → p.call v = p.call w) :=
  ⟨rfl, fun h => h ▸ rfl⟩

/-- C7: `step` returns 0 on strictly negative input and 1 on nonnegative
input; in particular `step (-0.001) = 0` and `step 0 = 1`. -/
theorem step_spec (a : ℝ) :
    (a < 0 → step a = 0) ∧ (0 ≤ a → step a = 1) ∧
    step (-(1 / 1000)) = 0 ∧ step 0 = 1 := by
  refine ⟨fun h => by simp [step, h], fun h => by simp [step, not_lt.mpr h], ?_, ?_⟩ <;>
    norm_num [step]

/-- C7 witness: the hypotheses of `step_spec` discharged at concrete inputs. -/
theorem step_spec_witness : step (-1) = 0 ∧ step 1 = 1 :=
  ⟨(step_spec (-1)).1 (by norm_num), (step_spec 1).2.1 (by norm_num)⟩

/-- C8: `diff eps` is exactly the forward difference on each component with
the caller-supplied `eps`, with no guard on `eps`. -/
theorem diff_forward_difference (p : PointFunc ℝ) (eps t : ℝ) :
    (p.diff eps).x t = (p.x (t + eps) - p.x t) / eps ∧
    (p.diff eps).y t = (p.y (t + eps) - p.y t) / eps ∧
    (p.diff eps).z t = (p.z (t + eps) - p.z t) / eps :=
  ⟨rfl, rfl, rfl⟩

/-- C9: mixed arithmetic between a concrete point and a point function is
total and treats the concrete side as a constant function: calling the
combination equals combining with the called value. -/
theorem mixed_ops_constant_lift (T : Type) (p : Point) (f : PointFunc T) (t : T) :
    (addPointFunc p f).call t = p.add (f.call t) ∧
    (f.addPoint p).call t = (f.call t).add p ∧
    (subPointFunc p f).call t = p.sub (f.call t) ∧
    (f.subPoint p).call t = (f.call t).sub p ∧
    (mulPointFunc p f).call t =
      Point.mk (p.x * (f.call t).x) (p.y * (f.call t).y) (p.z * (f.call t).z) :=
  ⟨rfl, rfl, rfl, rfl, rfl⟩

/-- C4: every point of `Point.circle` lies on the unit circle of the xy-plane:
`x^2 + y^2 = 1`, `z = 0`, and its norm is exactly 1 at every parameter. -/
theorem circle_unit_norm (t : ℝ) :
    (Point.circle.x t) ^ 2 + (Point.circle.y t) ^ 2 = 1 ∧
    Point.circle.z t = 0 ∧ Point.circle.norm t = 1 := by
  refine ⟨Real.cos_sq_add_sin_sq _, rfl, ?_⟩
  show Real.sqrt (Real.cos (t * TAU) ^ 2 + Real.sin (t * TAU) ^ 2 + 0 ^ 2) = 1
  rw [show Real.cos (t * TAU) ^ 2 + Real.sin (t * TAU) ^ 2 + 0 ^ 2 =
    Real.cos (t * TAU) ^ 2 + Real.sin (t * TAU) ^ 2 by ring,
    Real.cos_sq_add_sin_sq, Real.sqrt_one]

/-- C10: `half_circle` is `x ↦ sqrt (1 - x*x)`: nonnegative (and defined) for
`|x| ≤ 1`, 0 at `±1`, 1 at 0, and NaN (`none`) for `|x| > 1`. -/
theorem half_circle_spec (x : ℝ) :
    (|x| ≤ 1 → ∃ r, half_circle x = some r ∧ 0 ≤ r) ∧
    (1 < |x| → half_circle x = none) ∧
    half_circle 1 = some 0 ∧ half_circle (-1) = some 0 ∧ half_circle 0 = some 1 := by
  refine ⟨?_, ?_, ?_, ?_, ?_⟩
  · intro h
    have h1 : x * x ≤ 1 := by nlinarith [abs_nonneg x, abs_mul_abs_self x]
    refine ⟨Real.sqrt (1 - x * x), ?_, Real.sqrt_nonneg _⟩
    simp [half_circle, sqrtN, not_lt.mpr (by linarith : (0:ℝ) ≤ 1 - x * x)]
  · intro h
    have h1 : 1 < x * x := by nlinarith [abs_mul_abs_self x]
    simp [half_circle, sqrtN, show (1:ℝ) - x * x < 0 by linarith]
  · norm_num [half_circle, sqrtN]
  · norm_num [half_circle, sqrtN]
  · norm_num [half_circle, sqrtN]

/-- C10 witness: the hypotheses of `half_circle_spec` discharged at the
concrete inputs `1/2` and `2`. -/
theorem half_circle_spec_witness :
    (∃ r, half_circle (1 / 2) = some r ∧ 0 ≤ r) ∧ half_circle 2 = none :=
  ⟨(half_circle_spec (1 / 2)).1 (by norm_num [abs_le]),
   (half_circle_spec 2).2.1 (by norm_num)⟩

/-- For a nonnegative parameter, `zip` follows the spec's exact rule. -/
theorem zip_eq_specZipRule_of_nonneg (a b : ℝ → ℝ) (t : ℝ) (ht : 0 ≤ t) :
    zip a b t = specZipRule a b t := by
  have h2 : fmod t 2 = t - 2 * ((⌊t / 2⌋ : ℤ) : ℝ) := by
    unfold fmod rtrunc
    rw [if_pos (show (0:ℝ) ≤ t / 2 by linarith)]
  have h1 : fmod t 1 = t - ((⌊t⌋ : ℤ) : ℝ) := by
    unfold fmod rtrunc
    rw [div_one, if_pos ht, one_mul]
  have hml : ((⌊t / 2⌋ : ℤ) : ℝ) ≤ t / 2 := Int.floor_le _
  have hmu : t / 2 < (⌊t / 2⌋ : ℤ) + 1 := Int.lt_floor_add_one _
  by_cases hc : fmod t 2 < 1
  · have hlt : t < 2 * ((⌊t / 2⌋ : ℤ) : ℝ) + 1 := by rw [h2] at hc; linarith
    have hge : 2 * ((⌊t / 2⌋ : ℤ) : ℝ) ≤ t := by linarith
    have hfl : ⌊t⌋ = 2 * ⌊t / 2⌋ := by
      rw [Int.floor_eq_iff]
      constructor <;> push_cast <;> linarith
    have hev : ⌊t⌋ % 2 = 0 := by omega
    have hdiv : (⌊t⌋ / 2 : ℤ) = ⌊t / 2⌋ := by omega
    simp only [zip, specZipRule]
    rw [if_pos hc, if_pos hev, h1, hdiv, hfl]
  · have hge : 2 * ((⌊t / 2⌋ : ℤ) : ℝ) + 1 ≤ t := by
      rw [h2] at hc
      push_neg at hc
      linarith
    have hlt : t < 2 * ((⌊t / 2⌋ : ℤ) : ℝ) + 2 := by linarith
    have hfl : ⌊t⌋ = 2 * ⌊t / 2⌋ + 1 := by
      rw [Int.floor_eq_iff]
      constructor <;> push_cast <;> linarith
    have hodd : ¬ (⌊t⌋ % 2 = 0) := by omega
    have hfl2 : ⌊(t - 1) / 2⌋ = ⌊t / 2⌋ := by
      rw [Int.floor_eq_iff]
      constructor <;> linarith
    have hdiv : ((⌊t⌋ - 1) / 2 : ℤ) = ⌊t / 2⌋ := by omega
    simp only [zip, specZipRule]
    rw [if_neg hc, if_neg hodd, h1, hfl2, hdiv, hfl]

/-- C1 (amended): for every nonnegative parameter `t`, `zip(a,b)(t)` follows
the spec's exact rule (even floor: `a` at `(t mod 1) + n/2`; odd floor: `b` at
`(t mod 1) + (n-1)/2`); in particular `zip(a,b)(2) = a(1)` and
`zip(a,b)(1) = b(0)`, so consecutive segments join continuously.  For negative
`t` the machine remainder departs from floor-based modulo and the rule fails. -/
theorem zip_spec_rule_nonneg (a b : ℝ → ℝ) :
    (∀ t : ℝ, 0 ≤ t → zip a b t = specZipRule a b t) ∧
    zip a b 2 = a 1 ∧ zip a b 1 = b 0 := by
  refine ⟨fun t ht => zip_eq_specZipRule_of_nonneg a b t ht, ?_, ?_⟩
  · rw [zip_eq_specZipRule_of_nonneg a b 2 (by norm_num)]
    have hfl : ⌊(2 : ℝ)⌋ = 2 := by
      rw [Int.floor_eq_iff]; norm_num
    norm_num [specZipRule, hfl]
  · rw [zip_eq_specZipRule_of_nonneg a b 1 (by norm_num)]
    have hfl : ⌊(1 : ℝ)⌋ = 1 := Int.floor_one
    norm_num [specZipRule, hfl]

/-- C1 witness: the spec rule for `zip` instantiated at the concrete
nonnegative parameter `5/2`. -/
theorem zip_spec_rule_nonneg_witness :
    0 ≤ (5 / 2 : ℝ) ∧
    zip (fun x => x) (fun x => x + 1) (5 / 2) =
      specZipRule (fun x => x) (fun x => x + 1) (5 / 2) :=
  ⟨by norm_num, (zip_spec_rule_nonneg (fun x => x) (fun x => x + 1)).1 (5 / 2) (by norm_num)⟩

/-- C1 counterexample: at `t = -1/2` (with both zipped functions the
identity) `zip` evaluates to `-3/2`, while the spec's rule, whose floor of
`-1/2` is `-1` (odd), prescribes `b((t mod 1) + (n-1)/2) = -1/2`. -/
theorem zip_spec_rule_counterexample :
    zip (fun x => x) (fun x => x) (-(1 / 2)) = -(3 / 2) ∧
    specZipRule (fun x => x) (fun x => x) (-(1 / 2)) = -(1 / 2) ∧
    zip (fun x => x) (fun x => x) (-(1 / 2)) ≠
      specZipRule (fun x => x) (fun x => x) (-(1 / 2)) := by
  have hfl : ⌊(-(1 / 2) : ℝ)⌋ = -1 := by
    rw [Int.floor_eq_iff]; norm_num
  have hfl4 : ⌊(-(1 / 4) : ℝ)⌋ = -1 := by
    rw [Int.floor_eq_iff]; norm_num
  have hcl4 : ⌈(-(1 / 4) : ℝ)⌉ = 0 := by
    rw [Int.ceil_eq_iff]; norm_num
  have hcl2 : ⌈(-(1 / 2) : ℝ)⌉ = 0 := by
    rw [Int.ceil_eq_iff]; norm_num
  have hz : zip (fun x => x) (fun x => x) (-(1 / 2)) = -(3 / 2) := by
    have hm2 : fmod (-(1 / 2)) 2 = -(1 / 2) := by
      unfold fmod rtrunc
      rw [show (-(1 / 2) : ℝ) / 2 = -(1 / 4) by norm_num,
        if_neg (by norm_num : ¬ (0 : ℝ) ≤ -(1 / 4)), hcl4]
      norm_num
    have hm1 : fmod (-(1 / 2)) 1 = -(1 / 2) := by
      unfold fmod rtrunc
      rw [div_one, if_neg (by norm_num : ¬ (0 : ℝ) ≤ -(1 / 2)), hcl2]
      norm_num
    simp only [zip]
    rw [if_pos (by rw [hm2]; norm_num), hm1,
      show (-(1 / 2) : ℝ) / 2 = -(1 / 4) by norm_num, hfl4]
    norm_num
  have hs : specZipRule (fun x => x) (fun x => x) (-(1 / 2)) = -(1 / 2) := by
    simp only [specZipRule, hfl]
    norm_num
  exact ⟨hz, hs, by rw [hz, hs]; norm_num⟩

end HigherOrderPoint
